import Mathlib

/-!
# Verification of the cyto task-tree / timeline-synthesis core

Shallow embedding of the coordination core of the `cyto` repository:

* `cyto/stout/from_tree/_project_db_to_trail.py` — the marker-stack merge that
  turns a multi-lane project database into a single `Trail`.
* `cyto/stout/_trail.py` — `Trail` and its consecutive-sections validator.
* `cyto/cytio/broadcast/_broadcast_value.py` — the latest-value broadcast
  primitive with capacity-1 subscriber mailboxes.
* `cyto/cytio/tree/_task_tree/_task_tree.py` — the task-tree arborescence.
* `cyto/cytio/tree/current_tree.py` / `current_path.py` — scoped instance lookup.
* `cyto/cytio/tree/section/` — the per-task section state machine.

Machine times (`datetime`) are modelled as `Int`; `portion.closedopen`
intervals as a lower bound plus an optional finite upper bound (`none` = +inf).
-/

namespace Cyto

instance {ε α : Type} [DecidableEq ε] [DecidableEq α] : DecidableEq (Except ε α) := fun
  | .error e1, .error e2 =>
    if h : e1 = e2 then isTrue (congrArg Except.error h)
    else isFalse fun hh => h (Except.error.inj hh)
  | .error _, .ok _ => isFalse Except.noConfusion
  | .ok _, .error _ => isFalse Except.noConfusion
  | .ok a1, .ok a2 =>
    if h : a1 = a2 then isTrue (congrArg Except.ok h)
    else isFalse fun hh => h (Except.ok.inj hh)

/-- A closed-open interval `[lower, upper)`.  `upper = none` models an infinite
upper bound (`portion.inf` / `ClosedOpenInf`). -/
structure Interval where
  lower : Int
  upper : Option Int
deriving DecidableEq, Repr

/-- `Project` from `cyto/stout/_project_database/_project_database.py`. -/
structure Project where
  project_name : String
  assignee_id : Int
  assignee_name : Option String := none
  actual : Option Interval := none
  planned : Option Interval := none
  hints : List String := []
  parent : Option Int := none
deriving DecidableEq, Repr

/-- Marker kind: the `_BeginMarker` / `_EndMarker` subclasses of `_Marker`. -/
inductive MarkerKind where
  | BeginMarker
  | EndMarker
deriving DecidableEq, Repr

/-- `_Marker` from `_project_db_to_trail.py`: a time plus the originating
project, tagged with its kind. -/
structure Marker where
  kind : MarkerKind
  time : Int
  project : Project
deriving DecidableEq, Repr

/-- `_get_finite_upper`: the upper bound of the interval when it is a finite time. -/
def getFiniteUpper : Option Interval → Option Int
  | some i => i.upper
  | none => none

/-- `_BeginMarker.from_project`: begin at `actual.lower`, falling back to
`planned.lower`; `none` models the `assert project.planned is not None`
failure when both intervals are absent. -/
def beginMarkerFromProject (project : Project) : Option Marker :=
  match project.actual with
  | some a => some ⟨.BeginMarker, a.lower, project⟩
  | none =>
    match project.planned with
    | some p => some ⟨.BeginMarker, p.lower, project⟩
    | none => none

/-- `_EndMarker.from_project`: end at the finite upper bound of `actual`,
else of `planned`, else no end marker at all. -/
def endMarkerFromProject (project : Project) : Option Marker :=
  match getFiniteUpper project.actual with
  | some t => some ⟨.EndMarker, t, project⟩
  | none =>
    match getFiniteUpper project.planned with
    | some t => some ⟨.EndMarker, t, project⟩
    | none => none

/-- Errors raised by the timeline synthesizer and the `Trail` validator. -/
inductive TrailErr where
  /-- `AssertionError`: a project with neither `actual` nor `planned`. -/
  | assertionError
  /-- `IndexError`: `stack.pop()` on an empty stack. -/
  | indexError
  /-- `ValueError` from `Trail._consecutive_sections`. -/
  | valueErrorConsecutive
deriving DecidableEq, Repr

/-- `_markers`: yield the begin marker, then the end marker when present. -/
def markersOfProject (project : Project) : Except TrailErr (List Marker) :=
  match beginMarkerFromProject project with
  | none => .error .assertionError
  | some b =>
    match endMarkerFromProject project with
    | some e => .ok [b, e]
    | none => .ok [b]

/-- `ProjectDatabaseToTrailConfig` from
`cyto/stout/from_tree/_project_db_to_trail_config.py`. -/
structure ProjectDatabaseToTrailConfig where
  only_include : Option (List String) := none
  name_map : List (String × String) := []
deriving DecidableEq, Repr

/-- `ProjectDatabaseToTrailConfig.rename`: setting-specific name, defaulting
to the project name itself. -/
def ProjectDatabaseToTrailConfig.rename (cfg : ProjectDatabaseToTrailConfig)
    (project_name : String) : String :=
  match cfg.name_map.lookup project_name with
  | some r => r
  | none => project_name

/-- `TrailSection` from `cyto/stout/_trail.py`; its interval is always the
closed-open `[lower, upper)` produced by `portion.closedopen`.  The synthesizer
only builds sections with finite bounds, so both bounds are plain times. -/
structure TrailSection where
  name : String
  lower : Int
  upper : Int
  hints : List String := []
deriving DecidableEq, Repr

/-- `itertools.pairwise`: consecutive pairs of a list. -/
def pairwiseList {α : Type} : List α → List (α × α)
  | [] => []
  | [_] => []
  | a :: b :: rest => (a, b) :: pairwiseList (b :: rest)

/-- `Trail` from `cyto/stout/_trail.py`. -/
structure Trail where
  sections : List TrailSection := []
deriving DecidableEq, Repr

/-- The boolean condition checked by `Trail._consecutive_sections`:
`all(s0.interval.upper <= s1.interval.lower for s0, s1 in pairwise(...))`. -/
def consecutiveSections (sections : List TrailSection) : Bool :=
  (pairwiseList sections).all fun s => decide (s.1.upper ≤ s.2.lower)

/-- `Trail(sections=...)`: the pydantic constructor runs the
`_consecutive_sections` model validator and raises `ValueError` when more than
one section is present and some adjacent pair overlaps. -/
def mkTrail (sections : List TrailSection) : Except TrailErr Trail :=
  if 1 < sections.length ∧ ¬ consecutiveSections sections then
    .error .valueErrorConsecutive
  else
    .ok ⟨sections⟩

/-- The sort key of `sorted(markers, key=lambda m: m.time)`. -/
def markerLE (m1 m2 : Marker) : Prop := m1.time ≤ m2.time

instance : DecidableRel markerLE := fun m1 m2 => Int.decLe m1.time m2.time

instance : IsTotal Marker markerLE := ⟨fun m1 m2 => Int.le_total m1.time m2.time⟩

instance : IsTrans Marker markerLE := ⟨fun _ _ _ => Int.le_trans⟩

/-- `sorted(markers, key=lambda m: m.time)`: the Python sort is stable and keyed
by time only; insertion sort by `markerLE` has the same behaviour. -/
def sortMarkers (markers : List Marker) : List Marker :=
  List.insertionSort markerLE markers

/-- The flattened marker list: `markers.extend(_markers(project))` over all
projects of the database, in database order. -/
def flatMarkers (projects : List Project) : Except TrailErr (List Marker) := do
  let mss ← projects.mapM markersOfProject
  return mss.flatten

/-- The filter applied when `config.only_include is not None`. -/
def includedProjects (cfg : ProjectDatabaseToTrailConfig)
    (projects : List Project) : List Project :=
  match cfg.only_include with
  | some incl => projects.filter fun p => incl.contains p.project_name
  | none => projects

/-- One stack update of the marker walk: `stack.append(marker_first.project)`
for a begin marker, `stack.pop()` for an end marker (`IndexError` when the
stack is empty).  The Lean stack keeps its top at the head (Python keeps it at
the end of the list). -/
def markerStep (stack : List Project) (m : Marker) :
    Except TrailErr (List Project) :=
  match m.kind, stack with
  | .BeginMarker, s => .ok (m.project :: s)
  | .EndMarker, [] => .error .indexError
  | .EndMarker, _ :: s => .ok s

/-- The marker-stack walk of `_project_db_to_trail_sections` (lines 46-67):
`pairwise` over the sorted markers; each pair first updates the stack from the
first marker, then — when the stack is non-empty — emits one section named
after the stack top, spanning the two marker times. -/
def walkMarkers (cfg : ProjectDatabaseToTrailConfig) (stack : List Project) :
    List Marker → Except TrailErr (List TrailSection)
  | m1 :: m2 :: rest =>
    match markerStep stack m1 with
    | .error e => .error e
    | .ok stack1 =>
      match walkMarkers cfg stack1 (m2 :: rest) with
      | .error e => .error e
      | .ok tail =>
        match stack1.head? with
        | none => .ok tail
        | some top =>
          .ok (⟨cfg.rename top.project_name, m1.time, m2.time, top.hints⟩ :: tail)
  | _ => .ok []

/-- `_project_db_to_trail_sections`: filter, flatten into markers, stable-sort
by time, then walk with the stack. -/
def projectDbToTrailSections (cfg : ProjectDatabaseToTrailConfig)
    (db : List Project) : Except TrailErr (List TrailSection) := do
  let ms ← flatMarkers (includedProjects cfg db)
  walkMarkers cfg [] (sortMarkers ms)

/-- `project_db_to_trail`: wrap the sections in a `Trail`, which runs the
consecutive-sections validator. -/
def projectDbToTrail (cfg : ProjectDatabaseToTrailConfig)
    (db : List Project) : Except TrailErr Trail := do
  let sections ← projectDbToTrailSections cfg db
  mkTrail sections

/-! ## Sorting lemmas for the marker list -/

lemma orderedInsert_nil (a : Marker) :
    List.orderedInsert markerLE a [] = [a] := rfl

lemma orderedInsert_cons_le {a b : Marker} (h : markerLE a b) (l : List Marker) :
    List.orderedInsert markerLE a (b :: l) = a :: b :: l := by
  simp [List.orderedInsert, h]

lemma orderedInsert_cons_gt {a b : Marker} (h : ¬ markerLE a b) (l : List Marker) :
    List.orderedInsert markerLE a (b :: l) =
      b :: List.orderedInsert markerLE a l := by
  simp [List.orderedInsert, h]

/-- The sorted order of the four markers of two fully-overlapping projects:
`a` = A-begin, `b` = A-end, `c` = B-begin, `d` = B-end, flattened in database
order `[a, b, c, d]`. -/
lemma sortMarkers_two_projects (a b c d : Marker)
    (hcd : markerLE c d) (hbc : ¬ markerLE b c) (hbd : markerLE b d)
    (hac : markerLE a c) :
    sortMarkers [a, b, c, d] = [a, c, b, d] := by
  simp only [sortMarkers, List.insertionSort]
  rw [orderedInsert_nil, orderedInsert_cons_le hcd, orderedInsert_cons_gt hbc,
    orderedInsert_cons_le hbd, orderedInsert_cons_le hac]

/-! ## C1: two fully-overlapping sections -/

/-- A project occupying the actual interval `[lower, upper)`. -/
def spanProject (name : String) (id lower upper : Int) : Project :=
  { project_name := name, assignee_id := id, actual := some ⟨lower, some upper⟩ }

/-- C1 (counterexample): for A = `[0,2)` and B = `[1,3)` the synthesizer does
not produce the claimed segments `(A,0,1), (B,1,3)`; instead the end marker of A at
`t=2` pops B off the stack and the produced segments are
`(A,0,1), (B,1,2), (A,2,3)`. -/
theorem projectDbToTrail_overlap_counterexample :
    projectDbToTrail {} [spanProject "A" 1 0 2, spanProject "B" 2 1 3] ≠
      .ok ⟨[⟨"A", 0, 1, []⟩, ⟨"B", 1, 3, []⟩]⟩ ∧
    projectDbToTrail {} [spanProject "A" 1 0 2, spanProject "B" 2 1 3] =
      .ok ⟨[⟨"A", 0, 1, []⟩, ⟨"B", 1, 2, []⟩, ⟨"A", 2, 3, []⟩]⟩ := by
  constructor
  · decide
  · decide

/-- C1 (amended): for two fully-overlapping projects A with actual `[t0,t2)`
and B with actual `[t1,t3)`, `t0 < t1 < t2 < t3`, the synthesizer emits the
segments `(A,t0,t1), (B,t1,t2), (A,t2,t3)`: between consecutive markers the
segment is indeed named after the stack top, but the end marker of A at `t2` pops
the still-open B unconditionally, so A — not the later-started B — covers
`[t2,t3)`. -/
theorem projectDbToTrail_overlap_segments (t0 t1 t2 t3 : Int)
    (h01 : t0 < t1) (h12 : t1 < t2) (h23 : t2 < t3) :
    projectDbToTrail {} [spanProject "A" 1 t0 t2, spanProject "B" 2 t1 t3] =
      .ok ⟨[⟨"A", t0, t1, []⟩, ⟨"B", t1, t2, []⟩, ⟨"A", t2, t3, []⟩]⟩ := by
  have hsort := sortMarkers_two_projects
    ⟨.BeginMarker, t0, spanProject "A" 1 t0 t2⟩
    ⟨.EndMarker, t2, spanProject "A" 1 t0 t2⟩
    ⟨.BeginMarker, t1, spanProject "B" 2 t1 t3⟩
    ⟨.EndMarker, t3, spanProject "B" 2 t1 t3⟩
    (by simp [markerLE]; omega) (by simp [markerLE]; omega)
    (by simp [markerLE]; omega) (by simp [markerLE]; omega)
  simp only [projectDbToTrail, projectDbToTrailSections, flatMarkers,
    includedProjects, spanProject, markersOfProject, beginMarkerFromProject,
    endMarkerFromProject, getFiniteUpper, List.mapM_cons, List.mapM_nil,
    bind, Except.bind, pure, Except.pure, List.flatten] at *
  simp only [List.cons_append, List.nil_append, List.append_nil]
  rw [hsort]
  simp only [walkMarkers, markerStep, List.head?, mkTrail,
    ProjectDatabaseToTrailConfig.rename, List.lookup, consecutiveSections,
    pairwiseList, List.all_cons, List.all_nil]
  norm_num

/-- Witness for `projectDbToTrail_overlap_segments` at `t = 0, 1, 2, 3`. -/
theorem projectDbToTrail_overlap_segments_witness :
    projectDbToTrail {} [spanProject "A" 1 0 2, spanProject "B" 2 1 3] =
      .ok ⟨[⟨"A", 0, 1, []⟩, ⟨"B", 1, 2, []⟩, ⟨"A", 2, 3, []⟩]⟩ :=
  projectDbToTrail_overlap_segments 0 1 2 3 (by decide) (by decide) (by decide)

/-! ## C2: the synthesizer only ever emits consecutive, non-overlapping
sections, and the `Trail` validator rejects everything else -/

/-- The boolean validator condition is exactly the pairwise chain property. -/
lemma consecutiveSections_iff (secs : List TrailSection) :
    consecutiveSections secs = true ↔
      List.Chain' (fun a b : TrailSection => a.upper ≤ b.lower) secs := by
  induction secs with
  | nil => simp [consecutiveSections, pairwiseList]
  | cons s0 rest ih =>
    cases rest with
    | nil => simp [consecutiveSections, pairwiseList]
    | cons s1 rest' =>
      simp only [consecutiveSections, pairwiseList, List.all_cons,
        Bool.and_eq_true, decide_eq_true_eq] at ih ⊢
      rw [List.chain'_cons, ih]

/-- Any list of at most one section is trivially chained. -/
lemma chain'_of_short {α : Type} (R : α → α → Prop) (l : List α)
    (h : l.length ≤ 1) : List.Chain' R l := by
  match l, h with
  | [], _ => exact List.chain'_nil
  | [a], _ => exact List.chain'_singleton a

/-- Every section emitted by the walk starts no earlier than the first
remaining marker. -/
lemma walkMarkers_lower_bound (cfg : ProjectDatabaseToTrailConfig) :
    ∀ (rest : List Marker) (m : Marker) (stack : List Project)
      (secs : List TrailSection),
      List.Chain' markerLE (m :: rest) →
      walkMarkers cfg stack (m :: rest) = .ok secs →
      ∀ s ∈ secs, m.time ≤ s.lower := by
  intro rest
  induction rest with
  | nil =>
    intro m stack secs _ hw s hs
    simp only [walkMarkers] at hw
    injection hw with hw
    subst hw
    cases hs
  | cons m2 rest ih =>
    intro m stack secs hc hw s hs
    have hle : m.time ≤ m2.time := (List.chain'_cons.mp hc).1
    have hc2 : List.Chain' markerLE (m2 :: rest) := (List.chain'_cons.mp hc).2
    simp only [walkMarkers] at hw
    cases hms : markerStep stack m with
    | error e => rw [hms] at hw; exact Except.noConfusion hw
    | ok stack1 =>
      rw [hms] at hw
      dsimp only at hw
      cases hrec : walkMarkers cfg stack1 (m2 :: rest) with
      | error e => rw [hrec] at hw; exact Except.noConfusion hw
      | ok tail =>
        rw [hrec] at hw
        have htail : ∀ s ∈ tail, m2.time ≤ s.lower := ih m2 stack1 tail hc2 hrec
        cases hhd : stack1.head? with
        | none =>
          rw [hhd] at hw
          injection hw with hw
          subst hw
          exact le_trans hle (htail s hs)
        | some top =>
          rw [hhd] at hw
          injection hw with hw
          subst hw
          cases hs with
          | head => exact le_refl _
          | tail b hs => exact le_trans hle (htail s hs)

/-- The sections emitted by the walk over a time-sorted marker list are
pairwise consecutive: the upper bound of each section is at most the lower
bound of the next one. -/
lemma walkMarkers_chain' (cfg : ProjectDatabaseToTrailConfig) :
    ∀ (ms : List Marker) (stack : List Project) (secs : List TrailSection),
      List.Chain' markerLE ms →
      walkMarkers cfg stack ms = .ok secs →
      List.Chain' (fun a b : TrailSection => a.upper ≤ b.lower) secs := by
  intro ms
  induction ms with
  | nil =>
    intro stack secs _ hw
    simp only [walkMarkers] at hw
    injection hw with hw
    subst hw
    exact List.chain'_nil
  | cons m rest ih =>
    intro stack secs hc hw
    cases rest with
    | nil =>
      simp only [walkMarkers] at hw
      injection hw with hw
      subst hw
      exact List.chain'_nil
    | cons m2 rest' =>
      have hc2 : List.Chain' markerLE (m2 :: rest') := (List.chain'_cons.mp hc).2
      simp only [walkMarkers] at hw
      cases hms : markerStep stack m with
      | error e => rw [hms] at hw; exact Except.noConfusion hw
      | ok stack1 =>
        rw [hms] at hw
        dsimp only at hw
        cases hrec : walkMarkers cfg stack1 (m2 :: rest') with
        | error e => rw [hrec] at hw; exact Except.noConfusion hw
        | ok tail =>
          rw [hrec] at hw
          have htail := ih stack1 tail hc2 hrec
          have hlow := walkMarkers_lower_bound cfg rest' m2 stack1 tail hc2 hrec
          cases hhd : stack1.head? with
          | none =>
            rw [hhd] at hw
            injection hw with hw
            subst hw
            exact htail
          | some top =>
            rw [hhd] at hw
            injection hw with hw
            subst hw
            refine List.chain'_cons'.mpr ⟨?_, htail⟩
            intro b hb
            exact hlow b (List.mem_of_mem_head? hb)

/-- C2: whenever `_project_db_to_trail_sections` runs to completion, the
emitted sections are time-ordered and non-overlapping
(`segment[i].interval.upper <= segment[i+1].interval.lower` for all adjacent
pairs), so the `Trail` constructor accepts them and `project_db_to_trail`
returns a fully valid `Trail`; and constructing a `Trail` from any section
list violating the invariant raises `ValueError` instead of producing a
trail. -/
theorem projectDbToTrail_consecutive :
    (∀ (cfg : ProjectDatabaseToTrailConfig) (db : List Project)
        (secs : List TrailSection),
      projectDbToTrailSections cfg db = .ok secs →
      List.Chain' (fun a b : TrailSection => a.upper ≤ b.lower) secs ∧
        projectDbToTrail cfg db = .ok ⟨secs⟩) ∧
    (∀ secs : List TrailSection,
      ¬ List.Chain' (fun a b : TrailSection => a.upper ≤ b.lower) secs →
      mkTrail secs = .error .valueErrorConsecutive) := by
  constructor
  · intro cfg db secs hsecs
    have hchain :
        List.Chain' (fun a b : TrailSection => a.upper ≤ b.lower) secs := by
      rw [projectDbToTrailSections] at hsecs
      cases hfm : flatMarkers (includedProjects cfg db) with
      | error e => rw [hfm] at hsecs; exact Except.noConfusion hsecs
      | ok ms =>
        rw [hfm] at hsecs
        have hsorted : List.Chain' markerLE (sortMarkers ms) :=
          (List.sorted_insertionSort markerLE ms).chain'
        exact walkMarkers_chain' cfg (sortMarkers ms) [] secs hsorted hsecs
    refine ⟨hchain, ?_⟩
    rw [projectDbToTrail, hsecs]
    show mkTrail secs = .ok ⟨secs⟩
    rw [mkTrail, if_neg]
    intro hcontra
    exact hcontra.2 ((consecutiveSections_iff secs).mpr hchain)
  · intro secs hbad
    have hlen : 1 < secs.length := by
      by_contra hlen
      exact hbad (chain'_of_short _ secs (by omega))
    rw [mkTrail, if_pos]
    exact ⟨hlen, fun hcs => hbad ((consecutiveSections_iff secs).mp hcs)⟩

/-- Witness for `projectDbToTrail_consecutive` on the two-project database of
C1 and on a deliberately overlapping section list. -/
theorem projectDbToTrail_consecutive_witness :
    (List.Chain' (fun a b : TrailSection => a.upper ≤ b.lower)
        [⟨"A", 0, 1, []⟩, ⟨"B", 1, 2, []⟩, ⟨"A", 2, 3, []⟩] ∧
      projectDbToTrail {} [spanProject "A" 1 0 2, spanProject "B" 2 1 3] =
        .ok ⟨[⟨"A", 0, 1, []⟩, ⟨"B", 1, 2, []⟩, ⟨"A", 2, 3, []⟩]⟩) ∧
    mkTrail [⟨"A", 0, 5, []⟩, ⟨"B", 2, 3, []⟩] =
      .error .valueErrorConsecutive :=
  ⟨projectDbToTrail_consecutive.1 {}
      [spanProject "A" 1 0 2, spanProject "B" 2 1 3]
      [⟨"A", 0, 1, []⟩, ⟨"B", 1, 2, []⟩, ⟨"A", 2, 3, []⟩] (by decide),
    projectDbToTrail_consecutive.2 [⟨"A", 0, 5, []⟩, ⟨"B", 2, 3, []⟩]
      (by rw [List.chain'_pair]; decide)⟩

/-! ## C8: how ties between equal-timestamp markers are actually broken -/

/-- Filtering a time class through `orderedInsert`: elements passed over by the
insertion all have strictly smaller times, so the inserted marker lands in
front of its whole time class. -/
lemma filter_time_orderedInsert (t : Int) (a : Marker) (l : List Marker) :
    (List.orderedInsert markerLE a l).filter (fun m => decide (m.time = t)) =
      if a.time = t then a :: l.filter (fun m => decide (m.time = t))
      else l.filter (fun m => decide (m.time = t)) := by
  induction l with
  | nil =>
    by_cases hat : a.time = t <;> simp [List.orderedInsert, List.filter, hat]
  | cons b l' ih =>
    by_cases hab : markerLE a b
    · rw [orderedInsert_cons_le hab]
      by_cases hat : a.time = t <;> simp [List.filter, hat]
    · rw [orderedInsert_cons_gt hab]
      have hbt : b.time < a.time := by
        simp [markerLE] at hab
        omega
      by_cases hat : a.time = t
      · have hbne : ¬ b.time = t := by omega
        simp [List.filter, hbne, ih, hat]
      · by_cases hbt' : b.time = t <;> simp [List.filter, hbt', ih, hat]

/-- The sort used by the synthesizer is stable: it never reorders markers
with equal timestamps, each time class keeps its original order. -/
lemma filter_time_sortMarkers (t : Int) (ms : List Marker) :
    (sortMarkers ms).filter (fun m => decide (m.time = t)) =
      ms.filter (fun m => decide (m.time = t)) := by
  induction ms with
  | nil => rfl
  | cons a ms ih =>
    simp only [sortMarkers] at ih ⊢
    show (List.orderedInsert markerLE a
        (List.insertionSort markerLE ms)).filter _ = _
    rw [filter_time_orderedInsert]
    by_cases hat : a.time = t <;> simp [List.filter, hat, ih]

/-- The marker list of the four-project database used to refute the claimed
kind-first tie-break: A = `[0,2)`, B = `[2,3)`, C = `[5,7)`, D = `[3,5)`,
in that database order. -/
def tieDb : List Project :=
  [spanProject "A" 1 0 2, spanProject "B" 2 2 3,
    spanProject "C" 3 5 7, spanProject "D" 4 3 5]

/-- The flattened markers of `tieDb` (each project: begin, then end). -/
def tieMarkers : List Marker :=
  [⟨.BeginMarker, 0, spanProject "A" 1 0 2⟩,
    ⟨.EndMarker, 2, spanProject "A" 1 0 2⟩,
    ⟨.BeginMarker, 2, spanProject "B" 2 2 3⟩,
    ⟨.EndMarker, 3, spanProject "B" 2 2 3⟩,
    ⟨.BeginMarker, 5, spanProject "C" 3 5 7⟩,
    ⟨.EndMarker, 7, spanProject "C" 3 5 7⟩,
    ⟨.BeginMarker, 3, spanProject "D" 4 3 5⟩,
    ⟨.EndMarker, 5, spanProject "D" 4 3 5⟩]

/-- The order actually produced by `sorted(markers, key=lambda m: m.time)`:
stable, so at `t=2` and `t=3` an end marker precedes a begin marker while at
`t=5` a begin marker precedes an end marker. -/
def tieCodeOrder : List Marker :=
  [⟨.BeginMarker, 0, spanProject "A" 1 0 2⟩,
    ⟨.EndMarker, 2, spanProject "A" 1 0 2⟩,
    ⟨.BeginMarker, 2, spanProject "B" 2 2 3⟩,
    ⟨.EndMarker, 3, spanProject "B" 2 2 3⟩,
    ⟨.BeginMarker, 3, spanProject "D" 4 3 5⟩,
    ⟨.BeginMarker, 5, spanProject "C" 3 5 7⟩,
    ⟨.EndMarker, 5, spanProject "D" 4 3 5⟩,
    ⟨.EndMarker, 7, spanProject "C" 3 5 7⟩]

/-- The order the claim predicts if begin markers sort before end markers at
equal times (kind first, then original item order). -/
def tieBeginFirstOrder : List Marker :=
  [⟨.BeginMarker, 0, spanProject "A" 1 0 2⟩,
    ⟨.BeginMarker, 2, spanProject "B" 2 2 3⟩,
    ⟨.EndMarker, 2, spanProject "A" 1 0 2⟩,
    ⟨.BeginMarker, 3, spanProject "D" 4 3 5⟩,
    ⟨.EndMarker, 3, spanProject "B" 2 2 3⟩,
    ⟨.BeginMarker, 5, spanProject "C" 3 5 7⟩,
    ⟨.EndMarker, 5, spanProject "D" 4 3 5⟩,
    ⟨.EndMarker, 7, spanProject "C" 3 5 7⟩]

/-- The order the claim predicts if end markers sort before begin markers at
equal times (kind first, then original item order). -/
def tieEndFirstOrder : List Marker :=
  [⟨.BeginMarker, 0, spanProject "A" 1 0 2⟩,
    ⟨.EndMarker, 2, spanProject "A" 1 0 2⟩,
    ⟨.BeginMarker, 2, spanProject "B" 2 2 3⟩,
    ⟨.EndMarker, 3, spanProject "B" 2 2 3⟩,
    ⟨.BeginMarker, 3, spanProject "D" 4 3 5⟩,
    ⟨.EndMarker, 5, spanProject "D" 4 3 5⟩,
    ⟨.BeginMarker, 5, spanProject "C" 3 5 7⟩,
    ⟨.EndMarker, 7, spanProject "C" 3 5 7⟩]

/-- C8 (counterexample): the sorted marker order of `tieDb` is not explained by
any kind-first tie-break — at `t=2` the code puts an end marker before a begin
marker, at `t=5` a begin marker before an end marker — so under either reading
of "ties broken by marker kind and then by original item order" the claimed
order differs from the code's. -/
theorem sortMarkers_tie_counterexample :
    flatMarkers tieDb = .ok tieMarkers ∧
    sortMarkers tieMarkers = tieCodeOrder ∧
    tieCodeOrder ≠ tieBeginFirstOrder ∧
    tieCodeOrder ≠ tieEndFirstOrder :=
  ⟨by decide, by decide, by decide, by decide⟩

/-- C8 (amended): the synthesizer sorts the flattened markers ascending by
time with a *stable* sort keyed by time only: markers with equal timestamps
keep their original flattened order (database item order, begin before end
within one item); the marker kind is not a sort key. -/
theorem sortMarkers_sorted_and_stable :
    (∀ ms : List Marker, (sortMarkers ms).Sorted markerLE) ∧
    (∀ (ms : List Marker) (t : Int),
      (sortMarkers ms).filter (fun m => decide (m.time = t)) =
        ms.filter (fun m => decide (m.time = t))) ∧
    (∀ ms : List Marker, (sortMarkers ms).Perm ms) :=
  ⟨fun ms => List.sorted_insertionSort markerLE ms,
    fun ms t => filter_time_sortMarkers t ms,
    fun ms => List.perm_insertionSort markerLE ms⟩

/-! ## C10: a lone begin marker produces an empty trail -/

/-- `flatMarkers` on the empty database. -/
lemma flatMarkers_nil : flatMarkers [] = .ok [] := rfl

/-- `flatMarkers` on a one-project database. -/
lemma flatMarkers_singleton (p : Project) (ms : List Marker)
    (h : markersOfProject p = .ok ms) : flatMarkers [p] = .ok ms := by
  simp [flatMarkers, List.mapM, List.mapM.loop, h, bind, Except.bind, pure,
    Except.pure]

/-- C10: when a project has no finite upper bound on either its actual or its
planned interval, it contributes only a begin marker; for a database holding
just that project the flattened marker list has exactly one element, the
pairwise walk emits nothing, and `project_db_to_trail` returns an empty
`Trail`. -/
theorem projectDbToTrail_lone_marker (cfg : ProjectDatabaseToTrailConfig)
    (p : Project)
    (ha : getFiniteUpper p.actual = none)
    (hp : getFiniteUpper p.planned = none)
    (hb : (beginMarkerFromProject p).isSome = true) :
    projectDbToTrail cfg [p] = .ok ⟨[]⟩ := by
  obtain ⟨b, hbm⟩ := Option.isSome_iff_exists.mp hb
  have hend : endMarkerFromProject p = none := by
    rw [endMarkerFromProject, ha, hp]
  have hmk : markersOfProject p = .ok [b] := by
    rw [markersOfProject, hbm, hend]
  have hfm1 : flatMarkers [p] = .ok [b] := flatMarkers_singleton p [b] hmk
  cases hoi : cfg.only_include with
  | none =>
    have hip : includedProjects cfg [p] = [p] := by simp [includedProjects, hoi]
    simp [projectDbToTrail, projectDbToTrailSections, hip, hfm1, sortMarkers,
      List.insertionSort, orderedInsert_nil, walkMarkers, mkTrail, bind,
      Except.bind, pure, Except.pure]
  | some incl =>
    by_cases hin : p.project_name ∈ incl
    · have hip : includedProjects cfg [p] = [p] := by
        simp [includedProjects, hoi, List.filter, hin]
      simp [projectDbToTrail, projectDbToTrailSections, hip, hfm1, sortMarkers,
        List.insertionSort, orderedInsert_nil, walkMarkers, mkTrail, bind,
        Except.bind, pure, Except.pure]
    · have hip : includedProjects cfg [p] = [] := by
        simp [includedProjects, hoi, List.filter, hin]
      simp [projectDbToTrail, projectDbToTrailSections, hip, flatMarkers_nil,
        sortMarkers, List.insertionSort, walkMarkers, mkTrail, bind,
        Except.bind, pure, Except.pure]

/-- Witness for `projectDbToTrail_lone_marker`: one project with actual
interval `[5, inf)` and no planned interval. -/
theorem projectDbToTrail_lone_marker_witness :
    projectDbToTrail {}
      [{ project_name := "C", assignee_id := 3, actual := some ⟨5, none⟩ }] =
      .ok ⟨[]⟩ :=
  projectDbToTrail_lone_marker {}
    { project_name := "C", assignee_id := 3, actual := some ⟨5, none⟩ }
    rfl rfl rfl

/-! ## BroadcastValue (`cyto/cytio/broadcast/_broadcast_value.py`)

The anyio memory-object stream pair of each subscription is modelled by its
buffer state (capacity 1) plus the closed flags of its two ends. -/

/-- Faults of the anyio memory-object streams used by `BroadcastValue`:
`WouldBlock`, `BrokenResourceError` (receiver end closed),
`ClosedResourceError` (operating on an own closed end), `EndOfStream`. -/
inductive StreamFault where
  | wouldBlock
  | brokenResource
  | closedResource
  | endOfStream
deriving DecidableEq, Repr

/-- One `Subscription`: the state of a capacity-1 stream pair
(`send_stream`, `receive_stream`). -/
structure Subscription (T : Type) where
  pending : Option T := none
  sendClosed : Bool := false
  receiveClosed : Bool := false
deriving DecidableEq, Repr

/-- `send_stream.send_nowait(value)`. -/
def sendNowait {T : Type} (sub : Subscription T) (v : T) :
    Except StreamFault (Subscription T) :=
  if sub.sendClosed then .error .closedResource
  else if sub.receiveClosed then .error .brokenResource
  else
    match sub.pending with
    | some _ => .error .wouldBlock
    | none => .ok { sub with pending := some v }

/-- `receive_stream.receive_nowait()`. -/
def receiveNowait {T : Type} (sub : Subscription T) :
    Except StreamFault (T × Subscription T) :=
  if sub.receiveClosed then .error .closedResource
  else
    match sub.pending with
    | some v => .ok (v, { sub with pending := none })
    | none =>
      if sub.sendClosed then .error .endOfStream else .error .wouldBlock

/-- The `Seed` literal type: `"latest-value" | "first-value" | "nothing"`. -/
inductive Seed where
  | latestValue
  | firstValue
  | nothing
deriving DecidableEq, Repr

/-- `BroadcastValue` state: `_first_value` and `_latest_value` (the `NoValue`
sentinel is `none`), the subscription set (as a list) and the `_closed`
flag. -/
structure BroadcastValue (T : Type) where
  first_value : Option T := none
  latest_value : Option T := none
  subscriptions : List (Subscription T) := []
  closed : Bool := false
deriving DecidableEq, Repr

/-- Errors observable from `publish` / `subscribe`: the two `RuntimeError`
guards plus uncaught stream faults. -/
inductive BroadcastErr where
  | runtimeClosedPublish
  | runtimeClosedSubscribe
  | stream (fault : StreamFault)
deriving DecidableEq, Repr

/-- `BroadcastValue.subscribe`: guard on `_closed`; create a fresh capacity-1
stream pair, add it to the subscription set (at the end of the list) and seed
it with the latest or first value if present (`seed = none` defaults to
`"latest-value"`). -/
def BroadcastValue.subscribe {T : Type} (bv : BroadcastValue T)
    (seed : Option Seed) : Except BroadcastErr (BroadcastValue T) :=
  if bv.closed then .error .runtimeClosedSubscribe
  else
    let seed := seed.getD .latestValue
    let sub : Subscription T :=
      match seed with
      | .latestValue =>
        match bv.latest_value with
        | some v => { pending := some v }
        | none => {}
      | .firstValue =>
        match bv.first_value with
        | some v => { pending := some v }
        | none => {}
      | .nothing => {}
    .ok { bv with subscriptions := bv.subscriptions ++ [sub] }

/-- The per-subscription body of the `publish` loop: try `send_nowait`; on
`WouldBlock` (buffer full) evict the pending item with `receive_nowait` and
send again; on `BrokenResourceError` mark the subscription for removal
(`none`).  Any other stream fault propagates out of `publish` uncaught. -/
def publishToSub {T : Type} (sub : Subscription T) (v : T) :
    Except StreamFault (Option (Subscription T)) :=
  match sendNowait sub v with
  | .ok s => .ok (some s)
  | .error .wouldBlock =>
    match receiveNowait sub with
    | .error e => .error e
    | .ok (_, s) =>
      match sendNowait s v with
      | .error e => .error e
      | .ok s2 => .ok (some s2)
  | .error .brokenResource => .ok none
  | .error e => .error e

/-- The `publish` loop over all subscriptions; subscriptions marked for
removal are dropped (the source removes them after the loop). -/
def publishSubs {T : Type} (v : T) :
    List (Subscription T) → Except StreamFault (List (Subscription T))
  | [] => .ok []
  | s :: rest =>
    match publishToSub s v with
    | .error e => .error e
    | .ok none => publishSubs v rest
    | .ok (some s2) =>
      match publishSubs v rest with
      | .error e => .error e
      | .ok rest2 => .ok (s2 :: rest2)

/-- `BroadcastValue.publish`: guard on `_closed`; record the first value if
absent, push to every subscription mailbox, record the latest value. -/
def BroadcastValue.publish {T : Type} (bv : BroadcastValue T) (v : T) :
    Except BroadcastErr (BroadcastValue T) :=
  if bv.closed then .error .runtimeClosedPublish
  else
    match publishSubs v bv.subscriptions with
    | .error e => .error (.stream e)
    | .ok subs =>
      .ok { first_value := some (bv.first_value.getD v),
            latest_value := some v,
            subscriptions := subs,
            closed := bv.closed }

/-- `BroadcastValue.close`: closes the send stream of every subscription.
Faithful to the source, which never assigns `self._closed = True`: the
`closed` flag is left unchanged. -/
def BroadcastValue.close {T : Type} (bv : BroadcastValue T) :
    BroadcastValue T :=
  if bv.closed then bv
  else
    { bv with subscriptions :=
        bv.subscriptions.map fun s => { s with sendClosed := true } }

/-- A sequence of `publish` calls. -/
def publishSeq {T : Type} (bv : BroadcastValue T) :
    List T → Except BroadcastErr (BroadcastValue T)
  | [] => .ok bv
  | v :: rest =>
    match bv.publish v with
    | .error e => .error e
    | .ok bv2 => publishSeq bv2 rest

/-! ## C4: eviction and latest-value semantics -/

/-- Publishing to an open subscription always succeeds and leaves exactly the
new value pending, evicting any previously pending value. -/
lemma publishToSub_open {T : Type} (s : Subscription T) (v : T)
    (h1 : s.sendClosed = false) (h2 : s.receiveClosed = false) :
    publishToSub s v = .ok (some { s with pending := some v }) := by
  cases hp : s.pending with
  | none => simp [publishToSub, sendNowait, h1, h2, hp]
  | some v0 => simp [publishToSub, sendNowait, receiveNowait, h1, h2, hp]

/-- The `publish` loop over all-open subscriptions replaces every pending
slot with the published value. -/
lemma publishSubs_open {T : Type} (v : T) (subs : List (Subscription T))
    (hopen : ∀ s ∈ subs, s.sendClosed = false ∧ s.receiveClosed = false) :
    publishSubs v subs =
      .ok (subs.map fun s => { s with pending := some v }) := by
  induction subs with
  | nil => rfl
  | cons s rest ih =>
    have hs := hopen s (List.mem_cons_self s rest)
    have hrest := ih fun s2 hs2 => hopen s2 (List.mem_cons_of_mem s hs2)
    rw [publishSubs, publishToSub_open s v hs.1 hs.2, hrest]
    simp

/-- `publish` on an unclosed broadcast with all-open subscriptions. -/
lemma publish_open {T : Type} (bv : BroadcastValue T) (v : T)
    (hc : bv.closed = false)
    (hopen : ∀ s ∈ bv.subscriptions,
      s.sendClosed = false ∧ s.receiveClosed = false) :
    bv.publish v =
      .ok { first_value := some (bv.first_value.getD v),
            latest_value := some v,
            subscriptions :=
              bv.subscriptions.map fun s => { s with pending := some v },
            closed := false } := by
  rw [BroadcastValue.publish, if_neg (by simp [hc]),
    publishSubs_open v bv.subscriptions hopen, hc]

/-- C4: a mailbox holds at most one pending value and `publish` evicts a full
mailbox, and a subscriber that performs no reads during a sequence of
publishes finds exactly the last published value pending: its next
`receive_nowait` returns that value. -/
theorem broadcastValue_latest_value_wins {T : Type} :
    (∀ (s : Subscription T) (old v : T),
      s.sendClosed = false → s.receiveClosed = false →
      publishToSub { s with pending := some old } v =
        .ok (some { s with pending := some v })) ∧
    (∀ (bv : BroadcastValue T) (vs : List T) (last : T),
      vs.getLast? = some last →
      bv.closed = false →
      (∀ s ∈ bv.subscriptions,
        s.sendClosed = false ∧ s.receiveClosed = false) →
      ∃ bv2, publishSeq bv vs = .ok bv2 ∧
        bv2.latest_value = some last ∧
        bv2.subscriptions =
          bv.subscriptions.map (fun s => { s with pending := some last }) ∧
        ∀ s2 ∈ bv2.subscriptions,
          receiveNowait s2 = .ok (last, { s2 with pending := none })) := by
  constructor
  · intro s old v h1 h2
    exact publishToSub_open { s with pending := some old } v h1 h2
  · intro bv vs
    induction vs generalizing bv with
    | nil => intro last hlast; exact absurd hlast (by simp)
    | cons v rest ih =>
      intro last hlast hc hopen
      have hpub := publish_open bv v hc hopen
      cases rest with
      | nil =>
        have hl : v = last := by simpa using hlast
        subst hl
        have hstep : publishSeq bv [v] = .ok
            { first_value := some (bv.first_value.getD v),
              latest_value := some v,
              subscriptions :=
                bv.subscriptions.map fun s => { s with pending := some v },
              closed := false } := by
          rw [publishSeq, hpub]
          rfl
        refine ⟨_, hstep, rfl, rfl, ?_⟩
        · intro s2 hs2
          obtain ⟨s, hs, rfl⟩ := List.mem_map.mp hs2
          simp [receiveNowait, (hopen s hs).2]
      | cons v2 rest' =>
        have hlast2 : (v2 :: rest').getLast? = some last := by
          rw [List.getLast?_cons_cons] at hlast
          exact hlast
        obtain ⟨bv2, hseq, hl, hsubs, hrecv⟩ :=
          ih { first_value := some (bv.first_value.getD v),
               latest_value := some v,
               subscriptions :=
                 bv.subscriptions.map fun s => { s with pending := some v },
               closed := false }
            last hlast2 rfl
            (by
              intro s2 hs2
              obtain ⟨s, hs, rfl⟩ := List.mem_map.mp hs2
              exact hopen s hs)
        refine ⟨bv2, ?_, hl, ?_, hrecv⟩
        · rw [publishSeq, hpub]
          exact hseq
        · rw [hsubs]
          simp only [List.map_map]
          rfl

/-- Witness for `broadcastValue_latest_value_wins`: an already-full mailbox is
evicted, and after publishing `1, 2, 3` an idle subscriber holds exactly `3`. -/
theorem broadcastValue_latest_value_wins_witness :
    publishToSub ({ pending := some 7 } : Subscription Nat) 9 =
      .ok (some { pending := some 9 }) ∧
    ∃ bv2, publishSeq ({ subscriptions := [{}] } : BroadcastValue Nat)
        [1, 2, 3] = .ok bv2 ∧
      bv2.latest_value = some 3 ∧
      bv2.subscriptions = [{ pending := some 3 }] ∧
      ∀ s2 ∈ bv2.subscriptions,
        receiveNowait s2 = .ok (3, { s2 with pending := none }) := by
  constructor
  · exact (broadcastValue_latest_value_wins (T := Nat)).1 {} 7 9 rfl rfl
  · obtain ⟨bv2, h1, h2, h3, h4⟩ :=
      (broadcastValue_latest_value_wins (T := Nat)).2
        { subscriptions := [{}] } [1, 2, 3] 3 rfl rfl
        (by intro s hs; simp at hs; subst hs; exact ⟨rfl, rfl⟩)
    exact ⟨bv2, h1, h2, by simpa using h3, h4⟩

/-! ## C7: what `close` actually does -/

/-- C7 (code bug): `close()` closes the send stream of every subscription but
never assigns `self._closed = True`, so the `_closed` guards in `subscribe`
and `publish` stay dead: a subsequent `subscribe` succeeds (returning a fresh
working mailbox), a subsequent `publish` with no subscribers succeeds
silently, and with subscribers it fails only with an uncaught
`ClosedResourceError` from the stream layer instead of the intended
`RuntimeError`. -/
theorem broadcastValue_close_behaviour {T : Type} (bv : BroadcastValue T)
    (v : T) (hc : bv.closed = false) :
    bv.close.closed = false ∧
    (∀ s ∈ bv.close.subscriptions, s.sendClosed = true) ∧
    (∃ bv2, bv.close.subscribe none = .ok bv2) ∧
    (bv.subscriptions = [] → ∃ bv3, bv.close.publish v = .ok bv3) ∧
    (∀ s rest, bv.subscriptions = s :: rest →
      bv.close.publish v = .error (.stream .closedResource)) := by
  have hcl : bv.close =
      { bv with subscriptions :=
          bv.subscriptions.map fun s => { s with sendClosed := true } } := by
    rw [BroadcastValue.close, if_neg (by simp [hc])]
  refine ⟨?_, ?_, ?_, ?_, ?_⟩
  · rw [hcl]
    exact hc
  · intro s hs
    rw [hcl] at hs
    obtain ⟨s0, _, rfl⟩ := List.mem_map.mp hs
    rfl
  · refine Exists.intro ({ bv.close with subscriptions :=
        bv.close.subscriptions ++
          [(match bv.close.latest_value with
            | some v0 => ({ pending := some v0 } : Subscription T)
            | none => {})] }) ?_
    rw [BroadcastValue.subscribe,
      if_neg (show ¬bv.close.closed = true by rw [hcl]; simp [hc])]
    rfl
  · intro hsub
    refine Exists.intro
      ({ first_value := some (bv.close.first_value.getD v),
         latest_value := some v, subscriptions := [],
         closed := bv.close.closed } : BroadcastValue T) ?_
    rw [BroadcastValue.publish,
      if_neg (show ¬bv.close.closed = true by rw [hcl]; simp [hc])]
    rw [hcl, hsub]
    rfl
  · intro s rest hsub
    rw [hcl, hsub]
    rw [BroadcastValue.publish, if_neg (by simp [hc])]
    rfl

/-- Witness for `broadcastValue_close_behaviour`: a fresh broadcast with one
idle subscriber, closed and then used again. -/
theorem broadcastValue_close_behaviour_witness :
    ({ subscriptions := [{}] } : BroadcastValue Nat).close.closed = false ∧
    (∀ s ∈ ({ subscriptions := [{}] } :
        BroadcastValue Nat).close.subscriptions, s.sendClosed = true) ∧
    (∃ bv2, ({ subscriptions := [{}] } :
        BroadcastValue Nat).close.subscribe none = .ok bv2) ∧
    (({ subscriptions := [{}] } : BroadcastValue Nat).subscriptions = [] →
      ∃ bv3, ({ subscriptions := [{}] } :
        BroadcastValue Nat).close.publish 5 = .ok bv3) ∧
    (∀ s rest, ({ subscriptions := [{}] } :
        BroadcastValue Nat).subscriptions = s :: rest →
      ({ subscriptions := [{}] } : BroadcastValue Nat).close.publish 5 =
        .error (.stream .closedResource)) :=
  broadcastValue_close_behaviour { subscriptions := [{}] } 5 rfl

/-! ## TaskTree (`cyto/cytio/tree/_task_tree/_task_tree.py`)

The `networkx.DiGraph` underlying a `TaskTree`: a duplicate-free node list
and a duplicate-free edge list (networkx ignores re-added nodes and edges and
keeps insertion order).  Nodes are task identities. -/

/-- A task node (`anyio.TaskInfo` identity). -/
abbrev Node := Nat

/-- The mutable `networkx.DiGraph` state. -/
structure Graph where
  nodes : List Node := []
  edges : List (Node × Node) := []
deriving DecidableEq, Repr

/-- `DiGraph.add_node`: a no-op for an existing node. -/
def addNode (g : Graph) (n : Node) : Graph :=
  if g.nodes.contains n then g else { g with nodes := g.nodes ++ [n] }

/-- `DiGraph.add_edge`: adds missing endpoints, ignores an existing edge. -/
def addEdge (g : Graph) (e : Node × Node) : Graph :=
  let g1 := addNode (addNode g e.1) e.2
  if g1.edges.contains e then g1 else { g1 with edges := g1.edges ++ [e] }

/-- `DiGraph.add_edges_from`. -/
def addEdgesFrom (g : Graph) (es : List (Node × Node)) : Graph :=
  es.foldl addEdge g

/-- `nx.is_path(G, path)`: every consecutive pair of the path is an edge of
the graph; a pair whose first node is missing from the graph raises
`KeyError`, which `is_path` catches and turns into `False`.  A path with
fewer than two nodes is trivially a path. -/
def isPath (g : Graph) (path : List Node) : Bool :=
  (pairwiseList path).all fun e => g.nodes.contains e.1 && g.edges.contains e

/-- `G.in_degree(n)`: the number of edges pointing at `n`. -/
def inDegree (g : Graph) (n : Node) : Nat :=
  (g.edges.filter fun e => decide (e.2 = n)).length

/-- The undirected neighbours of `n`, as walked by the breadth-first search
of `nx.is_weakly_connected`. -/
def undirectedNeighbors (g : Graph) (n : Node) : List Node :=
  (g.edges.filterMap fun e => if e.1 = n then some e.2 else none) ++
    (g.edges.filterMap fun e => if e.2 = n then some e.1 else none)

/-- One breadth-first expansion of the undirected reachability frontier. -/
def reachStep (g : Graph) (seen : List Node) : List Node :=
  seen ++ ((seen.map (undirectedNeighbors g)).flatten.filter
    fun m => !seen.contains m)

/-- Iterated expansion; `g.nodes.length` rounds reach everything reachable. -/
def reachClosure (g : Graph) : Nat → List Node → List Node
  | 0, seen => seen
  | fuel + 1, seen => reachClosure g fuel (reachStep g seen)

/-- `nx.is_weakly_connected(G)`: every node is reachable from the first node
in the undirected sense (the empty graph raises before this is reached, see
`isArborescence`). -/
def weaklyConnected (g : Graph) : Bool :=
  match g.nodes with
  | [] => false
  | n :: _ =>
    g.nodes.all fun m => (reachClosure g g.nodes.length [n]).contains m

/-- `nx.is_arborescence(G)` = `is_tree(G) and max in_degree <= 1`, where
`is_tree` for a DiGraph is `len(G) - 1 == G.number_of_edges() and
is_weakly_connected(G)`.  The count comparison is over integers, as in
Python (so the empty graph fails it). -/
def isArborescence (g : Graph) : Bool :=
  ((g.nodes.length : Int) - 1 == (g.edges.length : Int)) &&
    weaklyConnected g && g.nodes.all fun n => inDegree g n ≤ 1

/-- `TaskTree.__init__`: a fresh DiGraph holding only the root node. -/
def plantTree (root : Node) : Graph := { nodes := [root], edges := [] }

/-- `TaskTree.add_path` (graph-state view of lines 74-81): early out when the
path is already present; otherwise add the edges of the path and check the
arborescence invariant, reporting the `RuntimeError` message when it fails
(the graph keeps the added edges — the source does not roll back).  The
`_broadcast_change()` call on line 82 raises `AttributeError` (see
`taskTreeBroadcastChangeFails`) but does not touch the graph, so it does not
appear in the graph-state semantics. -/
def add_path (g : Graph) (path : List Node) : Graph × Option String :=
  if isPath g path then (g, none)
  else
    let g2 := addEdgesFrom g (pairwiseList path)
    if isArborescence g2 then (g2, none)
    else (g2, some "No longer an arborescence")

/-- A sequence of `add_path` calls on one tree, threading the graph state and
stopping at the first call that raises. -/
def runAddPaths (g : Graph) : List (List Node) → Option Graph
  | [] => some g
  | p :: rest =>
    match add_path g p with
    | (g2, none) => runAddPaths g2 rest
    | (_, some _) => none

/-- Well-formedness maintained by every graph operation: no duplicate nodes
or edges, and edge endpoints are nodes of the graph. -/
structure WfGraph (g : Graph) : Prop where
  nodesNodup : g.nodes.Nodup
  edgesNodup : g.edges.Nodup
  edgeMemLeft : ∀ e ∈ g.edges, e.1 ∈ g.nodes
  edgeMemRight : ∀ e ∈ g.edges, e.2 ∈ g.nodes

lemma wf_plantTree (root : Node) : WfGraph (plantTree root) :=
  ⟨List.nodup_singleton root, List.nodup_nil, by simp [plantTree],
    by simp [plantTree]⟩

lemma addNode_edges (g : Graph) (n : Node) : (addNode g n).edges = g.edges := by
  rw [addNode]
  split <;> rfl

lemma mem_addNode_self (g : Graph) (n : Node) : n ∈ (addNode g n).nodes := by
  rw [addNode]
  split
  · next h => simpa using h
  · simp

lemma mem_addNode_of_mem (g : Graph) (n m : Node) (h : m ∈ g.nodes) :
    m ∈ (addNode g n).nodes := by
  rw [addNode]
  split
  · exact h
  · simp [h]

lemma wf_addNode (g : Graph) (n : Node) (h : WfGraph g) : WfGraph (addNode g n) := by
  constructor
  · rw [addNode]
    split
    · exact h.nodesNodup
    · next hn =>
      simp only [List.nodup_append, List.nodup_singleton]
      refine ⟨h.nodesNodup, trivial, ?_⟩
      intro a ha hb
      simp only [List.mem_singleton] at hb
      subst hb
      exact hn (by simpa using ha)
  · rw [addNode]
    split <;> exact h.edgesNodup
  · intro e he
    rw [addNode_edges] at he
    exact mem_addNode_of_mem g n e.1 (h.edgeMemLeft e he)
  · intro e he
    rw [addNode_edges] at he
    exact mem_addNode_of_mem g n e.2 (h.edgeMemRight e he)

lemma addEdge_nodes_mem (g : Graph) (e : Node × Node) :
    e.1 ∈ (addEdge g e).nodes ∧ e.2 ∈ (addEdge g e).nodes := by
  rw [addEdge]
  constructor
  · split
    · exact mem_addNode_of_mem _ _ _ (mem_addNode_self g e.1)
    · exact mem_addNode_of_mem _ _ _ (mem_addNode_self g e.1)
  · split
    · exact mem_addNode_self _ e.2
    · exact mem_addNode_self _ e.2

lemma wf_addEdge (g : Graph) (e : Node × Node) (h : WfGraph g) :
    WfGraph (addEdge g e) := by
  have h2 : WfGraph (addNode (addNode g e.1) e.2) :=
    wf_addNode _ _ (wf_addNode _ _ h)
  rw [addEdge]
  split
  · exact h2
  · next hne =>
    constructor
    · exact h2.nodesNodup
    · simp only [List.nodup_append, List.nodup_singleton]
      refine ⟨h2.edgesNodup, trivial, ?_⟩
      intro a ha hb
      simp only [List.mem_singleton] at hb
      subst hb
      exact hne (by simpa using ha)
    · intro e2 he2
      simp only [List.mem_append, List.mem_singleton] at he2
      rcases he2 with he2 | he2
      · exact h2.edgeMemLeft e2 he2
      · rw [he2]
        exact mem_addNode_of_mem _ _ _ (mem_addNode_self g e.1)
    · intro e2 he2
      simp only [List.mem_append, List.mem_singleton] at he2
      rcases he2 with he2 | he2
      · exact h2.edgeMemRight e2 he2
      · rw [he2]
        exact mem_addNode_self _ e.2

lemma wf_addEdgesFrom (es : List (Node × Node)) :
    ∀ (g : Graph), WfGraph g → WfGraph (addEdgesFrom g es) := by
  induction es with
  | nil => intro g h; exact h
  | cons e es ih =>
    intro g h
    exact ih (addEdge g e) (wf_addEdge g e h)

/-! ### Counting: the in-degrees of an arborescence -/

lemma sum_map_add {α : Type} (l : List α) (f f2 : α → Nat) :
    (l.map fun x => f x + f2 x).sum = (l.map f).sum + (l.map f2).sum := by
  induction l with
  | nil => rfl
  | cons a l ih => simp [ih]; omega

lemma sum_indicator_zero {α : Type} [DecidableEq α] (l : List α) (c : α)
    (hc : c ∉ l) : (l.map fun n => if c = n then 1 else 0).sum = 0 := by
  induction l with
  | nil => rfl
  | cons a l ih =>
    have hca : ¬ c = a := fun h => hc (h ▸ List.mem_cons_self a l)
    simp only [List.map_cons, List.sum_cons, if_neg hca]
    rw [ih fun h => hc (List.mem_cons_of_mem a h)]

lemma sum_indicator_one {α : Type} [DecidableEq α] (l : List α) (c : α)
    (hn : l.Nodup) (hc : c ∈ l) :
    (l.map fun n => if c = n then 1 else 0).sum = 1 := by
  induction l with
  | nil => cases hc
  | cons a l ih =>
    rcases List.mem_cons.mp hc with hca | hcl
    · subst hca
      simp only [List.map_cons, List.sum_cons, if_pos rfl]
      rw [sum_indicator_zero l c (List.nodup_cons.mp hn).1]
      simp
    · have hca : ¬ c = a := by
        intro h
        subst h
        exact (List.nodup_cons.mp hn).1 hcl
      simp only [List.map_cons, List.sum_cons, if_neg hca]
      rw [ih (List.nodup_cons.mp hn).2 hcl]

/-- The sum of the in-degrees over all nodes equals the number of edges. -/
lemma sum_inDegree (nodes : List Node) (edges : List (Node × Node))
    (hn : nodes.Nodup) (he : ∀ e ∈ edges, e.2 ∈ nodes) :
    (nodes.map fun n =>
      (edges.filter fun e => decide (e.2 = n)).length).sum = edges.length := by
  induction edges with
  | nil => simp
  | cons e es ih =>
    have he2 : e.2 ∈ nodes := he e (List.mem_cons_self e es)
    have hes : ∀ e2 ∈ es, e2.2 ∈ nodes :=
      fun e2 h2 => he e2 (List.mem_cons_of_mem e h2)
    have hsplit : ∀ n : Node,
        ((e :: es).filter fun e2 => decide (e2.2 = n)).length =
          (if e.2 = n then 1 else 0) +
            (es.filter fun e2 => decide (e2.2 = n)).length := by
      intro n
      by_cases h : e.2 = n
      · simp [List.filter, h]
        omega
      · simp [List.filter, h]
    calc (nodes.map fun n =>
          ((e :: es).filter fun e2 => decide (e2.2 = n)).length).sum
        = (nodes.map fun n => (if e.2 = n then 1 else 0) +
            (es.filter fun e2 => decide (e2.2 = n)).length).sum := by
          congr 1
          exact List.map_congr_left fun n _ => hsplit n
      _ = (nodes.map fun n => if e.2 = n then 1 else 0).sum +
            (nodes.map fun n =>
              (es.filter fun e2 => decide (e2.2 = n)).length).sum :=
          sum_map_add nodes _ _
      _ = 1 + es.length := by rw [sum_indicator_one nodes e.2 hn he2, ih hes]
      _ = (e :: es).length := by simp [Nat.add_comm]

/-- In a list of naturals bounded by 1 whose sum equals its length, every
entry is 1. -/
lemma all_one_of_sum_eq_length (l : List Nat) (h1 : ∀ x ∈ l, x ≤ 1)
    (h2 : l.sum = l.length) : ∀ x ∈ l, x = 1 := by
  induction l with
  | nil => intro x hx; cases hx
  | cons a l ih =>
    have hsum : l.sum ≤ l.length := by
      clear h2 ih
      induction l with
      | nil => simp
      | cons b t iht =>
        have hb := h1 b (List.mem_cons_of_mem a (List.mem_cons_self b t))
        have := iht fun x hx =>
          (by
            rcases List.mem_cons.mp hx with h | h
            · exact h1 x (h ▸ List.mem_cons_self a (b :: t))
            · exact h1 x (List.mem_cons_of_mem a (List.mem_cons_of_mem b h)))
        simp only [List.sum_cons, List.length_cons]
        omega
    have ha := h1 a (List.mem_cons_self a l)
    simp only [List.sum_cons, List.length_cons] at h2
    have ha1 : a = 1 := by omega
    intro x hx
    rcases List.mem_cons.mp hx with h | h
    · exact h ▸ ha1
    · exact ih (fun y hy => h1 y (List.mem_cons_of_mem a hy))
        (by omega) x h

/-- In a list of naturals bounded by 1 whose sum is one less than its length,
exactly one entry is 0. -/
lemma one_zero_of_sum (l : List Nat) (h1 : ∀ x ∈ l, x ≤ 1)
    (h2 : l.sum + 1 = l.length) :
    (l.filter fun x => decide (x = 0)).length = 1 := by
  induction l with
  | nil => simp at h2
  | cons a l ih =>
    have ha := h1 a (List.mem_cons_self a l)
    have h1l : ∀ x ∈ l, x ≤ 1 := fun y hy => h1 y (List.mem_cons_of_mem a hy)
    simp only [List.sum_cons, List.length_cons] at h2
    match a, ha with
    | 0, _ =>
      have hall : ∀ x ∈ l, x = 1 :=
        all_one_of_sum_eq_length l h1l (by omega)
      have hnone : (l.filter fun x => decide (x = 0)) = [] :=
        List.filter_eq_nil_iff.mpr fun x hx => by simp [hall x hx]
      simp [List.filter, hnone]
    | 1, _ =>
      have := ih h1l (by omega)
      simp only [List.filter]
      simpa using this

/-! ### Undirected reachability and directed cycles -/

/-- Undirected adjacency: the symmetrisation of the edge relation. -/
def undirAdj (g : Graph) (a b : Node) : Prop :=
  (a, b) ∈ g.edges ∨ (b, a) ∈ g.edges

lemma undirAdj_symm (g : Graph) : Symmetric (undirAdj g) :=
  fun _ _ h => h.symm

/-- `x` is the parent-to-child inverse step: `y` is a parent of `x`. -/
def parentStep (g : Graph) (x y : Node) : Prop := (y, x) ∈ g.edges

lemma mem_undirectedNeighbors (g : Graph) (n x : Node)
    (hx : x ∈ undirectedNeighbors g n) : undirAdj g n x := by
  rcases List.mem_append.mp hx with h | h
  · obtain ⟨e, he, hcond⟩ := List.mem_filterMap.mp h
    by_cases h1 : e.1 = n
    · rw [if_pos h1] at hcond
      injection hcond with h2
      left
      have : e = (n, x) := Prod.ext h1 h2
      rwa [← this]
    · rw [if_neg h1] at hcond
      cases hcond
  · obtain ⟨e, he, hcond⟩ := List.mem_filterMap.mp h
    by_cases h2 : e.2 = n
    · rw [if_pos h2] at hcond
      injection hcond with h1
      right
      have : e = (x, n) := Prod.ext h1 h2
      rwa [← this]
    · rw [if_neg h2] at hcond
      cases hcond

lemma reachStep_sound (g : Graph) (seen : List Node) (x : Node)
    (hx : x ∈ reachStep g seen) :
    x ∈ seen ∨ ∃ s ∈ seen, undirAdj g s x := by
  rcases List.mem_append.mp hx with h | h
  · exact Or.inl h
  · obtain ⟨hmem, -⟩ := List.mem_filter.mp h
    obtain ⟨l, hl, hxl⟩ := List.mem_flatten.mp hmem
    obtain ⟨s, hs, rfl⟩ := List.mem_map.mp hl
    exact Or.inr ⟨s, hs, mem_undirectedNeighbors g s x hxl⟩

lemma reachClosure_sound (g : Graph) :
    ∀ (fuel : Nat) (seen : List Node) (x : Node),
      x ∈ reachClosure g fuel seen →
      ∃ s ∈ seen, Relation.ReflTransGen (undirAdj g) s x := by
  intro fuel
  induction fuel with
  | zero => intro seen x hx; exact ⟨x, hx, .refl⟩
  | succ fuel ih =>
    intro seen x hx
    rw [reachClosure] at hx
    obtain ⟨s, hs, hrt⟩ := ih (reachStep g seen) x hx
    rcases reachStep_sound g seen s hs with h | ⟨s0, hs0, hadj⟩
    · exact ⟨s, h, hrt⟩
    · exact ⟨s0, hs0, .head hadj hrt⟩

lemma weaklyConnected_sound (g : Graph) (h : weaklyConnected g = true) :
    ∃ n0 ∈ g.nodes, ∀ x ∈ g.nodes,
      Relation.ReflTransGen (undirAdj g) n0 x := by
  rw [weaklyConnected] at h
  cases hg : g.nodes with
  | nil => rw [hg] at h; cases h
  | cons n0 rest =>
    rw [hg] at h
    refine ⟨n0, hg ▸ List.mem_cons_self n0 rest, ?_⟩
    intro x hx
    have hxall := List.all_eq_true.mp h x (hg ▸ hx)
    obtain ⟨s, hs, hrt⟩ := reachClosure_sound g (n0 :: rest).length [n0] x
      (by simpa using hxall)
    have hsn : s = n0 := by simpa using hs
    subst hsn
    exact hrt

/-- A directed cycle: a nonempty closed chain of edges.  `l = []` is a
self-loop `n → n`. -/
def HasDirectedCycle (g : Graph) : Prop :=
  ∃ (n : Node) (l : List Node),
    List.Chain (fun a b => (a, b) ∈ g.edges) n (l ++ [n])

lemma chain_in_edge {R : Node → Node → Prop} :
    ∀ (l : List Node) (a : Node), List.Chain R a l →
      ∀ x ∈ l, ∃ y ∈ a :: l, R y x := by
  intro l
  induction l with
  | nil => intro a _ x hx; cases hx
  | cons b t ih =>
    intro a hch x hx
    rcases List.chain_cons.mp hch with ⟨hab, hbt⟩
    rcases List.mem_cons.mp hx with rfl | hxt
    · exact ⟨a, List.mem_cons_self _ _, hab⟩
    · obtain ⟨y, hy, hyx⟩ := ih b hbt x hxt
      exact ⟨y, List.mem_cons_of_mem a hy, hyx⟩

/-- Every node of a directed cycle has an in-edge from within the cycle. -/
lemma cycle_in_edges (g : Graph) (n : Node) (l : List Node)
    (hch : List.Chain (fun a b => (a, b) ∈ g.edges) n (l ++ [n])) :
    ∀ x ∈ n :: l, ∃ y ∈ n :: l, (y, x) ∈ g.edges := by
  intro x hx
  have hx2 : x ∈ l ++ [n] := by
    rcases List.mem_cons.mp hx with rfl | h
    · exact List.mem_append.mpr (Or.inr (List.mem_singleton_self x))
    · exact List.mem_append.mpr (Or.inl h)
  obtain ⟨y, hy, hyx⟩ := chain_in_edge (l ++ [n]) n hch x hx2
  refine ⟨y, ?_, hyx⟩
  rcases List.mem_cons.mp hy with rfl | h
  · exact List.mem_cons_self _ _
  · rcases List.mem_append.mp h with h | h
    · exact List.mem_cons_of_mem n h
    · have : y = n := by simpa using h
      subst this
      exact List.mem_cons_self _ _

lemma two_le_length_of_mem_ne {α : Type} {x y : α} {l : List α}
    (hxy : x ≠ y) (hx : x ∈ l) (hy : y ∈ l) : 2 ≤ l.length := by
  cases l with
  | nil => cases hx
  | cons a t =>
    cases t with
    | nil =>
      have hx1 : x = a := by simpa using hx
      have hy1 : y = a := by simpa using hy
      exact absurd (hx1.trans hy1.symm) hxy
    | cons b t2 => simp [List.length]

/-- With all in-degrees at most one, a node has at most one parent. -/
lemma in_edge_unique (g : Graph) (wf : WfGraph g)
    (hdeg : ∀ n ∈ g.nodes, inDegree g n ≤ 1) {a b x : Node}
    (h1 : (a, x) ∈ g.edges) (h2 : (b, x) ∈ g.edges) : a = b := by
  by_contra hab
  have m1 : (a, x) ∈ g.edges.filter fun e => decide (e.2 = x) :=
    List.mem_filter.mpr ⟨h1, by simp⟩
  have m2 : (b, x) ∈ g.edges.filter fun e => decide (e.2 = x) :=
    List.mem_filter.mpr ⟨h2, by simp⟩
  have hne : ((a, x) : Node × Node) ≠ (b, x) := by simp [hab]
  have hx : x ∈ g.nodes := wf.edgeMemRight _ h1
  have hle := hdeg x hx
  rw [inDegree] at hle
  have := two_le_length_of_mem_ne hne m1 m2
  omega

/-- The structural content of the `is_arborescence` check on a well-formed
graph: exactly one root (in-degree 0), in-degree at most one everywhere, and
no directed cycle. -/
lemma arborescence_structure (g : Graph) (wf : WfGraph g)
    (ha : isArborescence g = true) :
    (g.nodes.filter fun n => decide (inDegree g n = 0)).length = 1 ∧
    (∀ n ∈ g.nodes, inDegree g n ≤ 1) ∧
    ¬ HasDirectedCycle g := by
  rw [isArborescence] at ha
  simp only [Bool.and_eq_true, beq_iff_eq, List.all_eq_true,
    decide_eq_true_eq] at ha
  obtain ⟨⟨hcount, hconn⟩, hdeg⟩ := ha
  have hdeg : ∀ n ∈ g.nodes, inDegree g n ≤ 1 := fun n hn => hdeg n hn
  have hlen : g.edges.length + 1 = g.nodes.length := by omega
  have hsum := sum_inDegree g.nodes g.edges wf.nodesNodup wf.edgeMemRight
  have hroots :
      ((g.nodes.map fun n => inDegree g n).filter fun x =>
        decide (x = 0)).length = 1 := by
    apply one_zero_of_sum
    · intro x hx
      obtain ⟨n, hn, rfl⟩ := List.mem_map.mp hx
      exact hdeg n hn
    · rw [List.length_map]
      rw [show (g.nodes.map fun n => inDegree g n).sum = g.edges.length
        from hsum]
      exact hlen
  have hfil1 :
      (g.nodes.filter fun n => decide (inDegree g n = 0)).length = 1 := by
    rw [List.filter_map] at hroots
    simpa using hroots
  refine ⟨hfil1, hdeg, ?_⟩
  rintro ⟨n, l, hch⟩
  obtain ⟨r, hr⟩ := List.length_eq_one.mp hfil1
  have hrmem : r ∈ g.nodes ∧ inDegree g r = 0 := by
    have : r ∈ g.nodes.filter fun n => decide (inDegree g n = 0) := by
      rw [hr]; exact List.mem_singleton_self r
    have := List.mem_filter.mp this
    simpa using this
  have hC := cycle_in_edges g n l hch
  have hCnodes : ∀ x ∈ n :: l, x ∈ g.nodes := by
    intro x hx
    obtain ⟨y, _, hyx⟩ := hC x hx
    exact wf.edgeMemRight _ hyx
  have hrC : r ∉ n :: l := by
    intro hrcy
    obtain ⟨y, _, hyr⟩ := hC r hrcy
    have hmem : (y, r) ∈ g.edges.filter fun e => decide (e.2 = r) :=
      List.mem_filter.mpr ⟨hyr, by simp⟩
    have : 0 < inDegree g r := by
      rw [inDegree]
      exact List.length_pos.mpr (List.ne_nil_of_mem hmem)
    omega
  have hA : ∀ x, Relation.ReflTransGen (parentStep g) x r →
      x ∈ n :: l → False := by
    intro x hx
    induction hx using Relation.ReflTransGen.head_induction_on with
    | refl => intro hrcy; exact hrC hrcy
    | @head a c hstep _ ih =>
      intro haC
      obtain ⟨p, hpC, hpa⟩ := hC a haC
      have hcp : c = p := in_edge_unique g wf hdeg hstep hpa
      exact ih (hcp ▸ hpC)
  have hB : ∀ x, Relation.ReflTransGen (undirAdj g) r x →
      Relation.ReflTransGen (parentStep g) x r := by
    intro x hx
    induction hx with
    | refl => exact .refl
    | @tail y x2 _ hadj ih =>
      rcases hadj with hyx | hxy
      · exact .head (show parentStep g x2 y from hyx) ih
      · rcases Relation.ReflTransGen.cases_head ih with hyr | ⟨z, hz, hzr⟩
        · exfalso
          have hmem : (x2, r) ∈ g.edges.filter fun e => decide (e.2 = r) :=
            List.mem_filter.mpr ⟨hyr ▸ hxy, by simp⟩
          have : 0 < inDegree g r := by
            rw [inDegree]
            exact List.length_pos.mpr (List.ne_nil_of_mem hmem)
          omega
        · have hzx : z = x2 := in_edge_unique g wf hdeg hz hxy
          exact hzx ▸ hzr
  obtain ⟨n0, hn0, hreach⟩ := weaklyConnected_sound g hconn
  have hsymm : Symmetric (Relation.ReflTransGen (undirAdj g)) :=
    Relation.ReflTransGen.symmetric (undirAdj_symm g)
  have hrx : ∀ x ∈ g.nodes, Relation.ReflTransGen (undirAdj g) r x := by
    intro x hx
    exact .trans (hsymm (hreach r hrmem.1)) (hreach x hx)
  have hnC : n ∈ n :: l := List.mem_cons_self n l
  exact hA n (hB n (hrx n (hCnodes n hnC))) hnC

/-! ## C6: the arborescence invariant across plant / add_path sequences -/

/-- A freshly planted tree is an arborescence. -/
lemma isArborescence_plantTree (root : Node) :
    isArborescence (plantTree root) = true := by
  simp [plantTree, isArborescence, weaklyConnected, reachClosure, reachStep,
    undirectedNeighbors, inDegree]

/-- Any error-free run of `add_path` calls preserves well-formedness and the
arborescence check: each completing call either left the graph unchanged or
re-checked the invariant. -/
lemma runAddPaths_arborescence :
    ∀ (ops : List (List Node)) (g g2 : Graph), WfGraph g →
      isArborescence g = true → runAddPaths g ops = some g2 →
      WfGraph g2 ∧ isArborescence g2 = true := by
  intro ops
  induction ops with
  | nil =>
    intro g g2 hwf ha h
    injection h with h
    subst h
    exact ⟨hwf, ha⟩
  | cons p rest ih =>
    intro g g2 hwf ha h
    rw [runAddPaths, add_path] at h
    by_cases hp : isPath g p = true
    · rw [if_pos hp] at h
      exact ih g g2 hwf ha h
    · rw [if_neg hp] at h
      by_cases hb : isArborescence (addEdgesFrom g (pairwiseList p)) = true
      · rw [if_pos hb] at h
        exact ih _ g2 (wf_addEdgesFrom _ g hwf) hb h
      · rw [if_neg hb] at h
        cases h

/-- C6: starting from a planted tree, every sequence of `add_path` calls that
completes without raising keeps the tree a valid arborescence — the
`is_arborescence` check holds, there is exactly one root (in-degree zero),
every node has at most one parent, and there is no directed cycle.
`add_path` is idempotent: a path already present is a no-op.  And when the
inserted edges break the invariant, `add_path` reports the fatal
`RuntimeError` (leaving the inserted edges in place) rather than repairing or
ignoring them. -/
theorem taskTree_arborescence_invariant :
    (∀ (root : Node) (ops : List (List Node)) (g : Graph),
      runAddPaths (plantTree root) ops = some g →
      isArborescence g = true ∧
      (g.nodes.filter fun n => decide (inDegree g n = 0)).length = 1 ∧
      (∀ n ∈ g.nodes, inDegree g n ≤ 1) ∧
      ¬ HasDirectedCycle g) ∧
    (∀ (g : Graph) (p : List Node), isPath g p = true →
      add_path g p = (g, none)) ∧
    (∀ (g : Graph) (p : List Node), isPath g p = false →
      isArborescence (addEdgesFrom g (pairwiseList p)) = false →
      add_path g p =
        (addEdgesFrom g (pairwiseList p), some "No longer an arborescence")) := by
  refine ⟨?_, ?_, ?_⟩
  · intro root ops g h
    obtain ⟨hwf, ha⟩ := runAddPaths_arborescence ops (plantTree root) g
      (wf_plantTree root) (isArborescence_plantTree root) h
    obtain ⟨h1, h2, h3⟩ := arborescence_structure g hwf ha
    exact ⟨ha, h1, h2, h3⟩
  · intro g p hp
    rw [add_path, if_pos hp]
  · intro g p hp hb
    rw [add_path, if_neg (by simp [hp]), if_neg (by simp [hb])]

/-- Witness for `taskTree_arborescence_invariant`: plant at task 0, add the
paths `[0,1]`, `[0,1,2]` and (idempotently) `[0,1]` again; separately, a
no-op call on an already-present path and a call that would give node 1 two
parents. -/
theorem taskTree_arborescence_invariant_witness :
    (isArborescence ⟨[0, 1, 2], [(0, 1), (1, 2)]⟩ = true ∧
      ((⟨[0, 1, 2], [(0, 1), (1, 2)]⟩ : Graph).nodes.filter fun n =>
        decide (inDegree ⟨[0, 1, 2], [(0, 1), (1, 2)]⟩ n = 0)).length = 1 ∧
      (∀ n ∈ (⟨[0, 1, 2], [(0, 1), (1, 2)]⟩ : Graph).nodes,
        inDegree ⟨[0, 1, 2], [(0, 1), (1, 2)]⟩ n ≤ 1) ∧
      ¬ HasDirectedCycle ⟨[0, 1, 2], [(0, 1), (1, 2)]⟩) ∧
    add_path ⟨[0, 1], [(0, 1)]⟩ [0, 1] = (⟨[0, 1], [(0, 1)]⟩, none) ∧
    add_path ⟨[0, 1], [(0, 1)]⟩ [2, 1] =
      (⟨[0, 1, 2], [(0, 1), (2, 1)]⟩, some "No longer an arborescence") := by
  refine ⟨?_, ?_, ?_⟩
  · exact taskTree_arborescence_invariant.1 0 [[0, 1], [0, 1, 2], [0, 1]]
      ⟨[0, 1, 2], [(0, 1), (1, 2)]⟩ (by decide)
  · exact taskTree_arborescence_invariant.2.1 ⟨[0, 1], [(0, 1)]⟩ [0, 1]
      (by decide)
  · have h := taskTree_arborescence_invariant.2.2 ⟨[0, 1], [(0, 1)]⟩ [2, 1]
      (by decide) (by decide)
    simpa using h

/-! ## C3: change notifications from TaskTree mutations -/

/-- Errors raised by `TaskTree` operations. -/
inductive TaskTreeErr where
  | attributeError (attr : String)
  | runtimeError (msg : String)
deriving DecidableEq, Repr

/-- The attribute names defined by the `BroadcastValue` class body: the
`__init__` instance attributes, the two properties, and the methods. -/
def broadcastValueAttrs : List String :=
  ["_first_value", "_latest_value", "_subscriptions", "_closed",
    "first_value", "latest_value", "subscribe", "publish", "close",
    "__enter__", "__exit__"]

/-- The attribute that `TaskTree._broadcast_change` looks up on its
`_change_broadcast`: the source line is `self._change_broadcast.set(self)`. -/
def broadcastChangeAttr : String := "set"

/-- `TaskTree._broadcast_change()`: Python resolves the attribute named by
`broadcastChangeAttr` on the `BroadcastValue` instance; a missing attribute
raises `AttributeError` before anything is published. -/
def broadcastChange : Except TaskTreeErr Unit :=
  if broadcastValueAttrs.contains broadcastChangeAttr then .ok ()
  else .error (.attributeError broadcastChangeAttr)

/-- `TaskTree.mutate_nodes`: the scope yields the mutable node view and the
`finally:` block calls `_broadcast_change()` on release. -/
def mutateNodesScope (g : Graph) : Except TaskTreeErr Graph :=
  match broadcastChange with
  | .error e => .error e
  | .ok _ => .ok g

/-- `TaskTree.add_path` (control-flow view of lines 74-82): the graph
mutation of `add_path` followed by `_broadcast_change()` whenever the tree
was actually extended. -/
def addPathCall (g : Graph) (path : List Node) : Except TaskTreeErr Graph :=
  if isPath g path then .ok g
  else
    let g2 := addEdgesFrom g (pairwiseList path)
    if isArborescence g2 then
      match broadcastChange with
      | .error e => .error e
      | .ok _ => .ok g2
    else .error (.runtimeError "No longer an arborescence")

/-- C3 (code bug): `_broadcast_change` calls
`self._change_broadcast.set(self)`, but the `BroadcastValue` class defines
`publish`, not `set`; the attribute lookup raises `AttributeError`, so no
`mutate_nodes` release and no tree-extending `add_path` ever publishes a
change notification — they raise instead. -/
theorem taskTree_broadcast_change_bug :
    broadcastChange = .error (.attributeError "set") ∧
    (∀ g : Graph, mutateNodesScope g = .error (.attributeError "set")) ∧
    (∀ (g : Graph) (p : List Node), isPath g p = false →
      isArborescence (addEdgesFrom g (pairwiseList p)) = true →
      addPathCall g p = .error (.attributeError "set")) := by
  have hbc : broadcastChange = .error (.attributeError "set") := by decide
  refine ⟨hbc, fun g => ?_, fun g p hp hb => ?_⟩
  · rw [mutateNodesScope, hbc]
  · rw [addPathCall, if_neg (by simp [hp]), if_pos hb, hbc]

/-- Witness for `taskTree_broadcast_change_bug`: a single-node tree; a
`mutate_nodes` scope release and an `add_path([0, 1])` call both raise
`AttributeError` instead of publishing. -/
theorem taskTree_broadcast_change_bug_witness :
    mutateNodesScope ⟨[0], []⟩ = .error (.attributeError "set") ∧
    addPathCall ⟨[0], []⟩ [0, 1] = .error (.attributeError "set") :=
  ⟨taskTree_broadcast_change_bug.2.1 ⟨[0], []⟩,
    taskTree_broadcast_change_bug.2.2 ⟨[0], []⟩ [0, 1] (by decide) (by decide)⟩

/-! ## Section scopes (`cyto/cytio/tree/section/`)

`_MutableSection` holds `name`, `hints`, `is_entered`, a `children` dict
keyed by name and an `active_child` reference into it.  Only the chain of
active children and the names of the (possibly closed) children influence
section entry, so the model keeps every child by name and the active child in
full. -/

/-- `_MutableSection`: the state reachable from a task root section. -/
inductive MSection where
  | mk (name : String) (hints : List String) (is_entered : Bool)
      (childNames : List String) (activeChild : Option MSection)
deriving Repr

/-- The `name` field. -/
def MSection.name : MSection → String
  | .mk n _ _ _ _ => n

/-- The `is_entered` flag, toggled by `__enter__` / `__exit__`. -/
def MSection.is_entered : MSection → Bool
  | .mk _ _ e _ _ => e

/-- The keys of the `children` dict, in creation order. -/
def MSection.childNames : MSection → List String
  | .mk _ _ _ cn _ => cn

/-- The `active_child` reference. -/
def MSection.activeChild : MSection → Option MSection
  | .mk _ _ _ _ a => a

/-- Errors raised while entering a section. -/
inductive SectionErr where
  /-- `ValueError("Section name already in use")` from `child()`. -/
  | duplicateName
  /-- `RuntimeError("There already is an active child")` from `child()`. -/
  | activeChildInUse
  /-- `RuntimeError("The current task already has a root-level section...")`
  from `section()`. -/
  | rootAlreadyExists
deriving DecidableEq, Repr

/-- `innermost_active_child()`: follow `active_child` references down. -/
def innermostActive : MSection → MSection
  | .mk n h e cn none => .mk n h e cn none
  | .mk _ _ _ _ (some c) => innermostActive c

/-- `parent_section.child(name, hints=hints)` applied to the innermost active
section (as `section()` does): walk the active chain; at the innermost
section check the sibling names, then create the child, record it and make
it the active, entered child. -/
def enterInnermost : MSection → String → List String →
    Except SectionErr MSection
  | .mk n h e cn none, name, hints =>
    if cn.contains name then .error .duplicateName
    else .ok (.mk n h e (cn ++ [name]) (some (.mk name hints true [] none)))
  | .mk n h e cn (some c), name, hints =>
    match enterInnermost c name hints with
    | .error er => .error er
    | .ok c2 => .ok (.mk n h e cn (some c2))

/-- `section(name, hints=...)`, entry behaviour: with no existing root
section for the task, create and enter one; otherwise fail when the existing
root-level section is no longer entered, else nest a child under the
innermost active section. -/
def sectionEnter (taskSection : Option MSection) (name : String)
    (hints : List String) : Except SectionErr MSection :=
  match taskSection with
  | none => .ok (.mk name hints true [] none)
  | some ts =>
    if ts.is_entered then enterInnermost ts name hints
    else .error .rootAlreadyExists

/-- A duplicate sibling name at the innermost active section makes the walk
fail with the duplicate-name error. -/
lemma enterInnermost_duplicate (ts : MSection) (name : String)
    (hints : List String)
    (hdup : (innermostActive ts).childNames.contains name = true) :
    enterInnermost ts name hints = .error .duplicateName := by
  induction ts, name, hints using enterInnermost.induct with
  | case1 n h e cn name hints hc =>
    rw [enterInnermost, if_pos hc]
  | case2 n h e cn name hints hc =>
    simp only [innermostActive, MSection.childNames] at hdup
    exact absurd hdup hc
  | case3 n h e cn c name hints er hx ih =>
    simp only [innermostActive] at hdup
    rw [enterInnermost, ih hdup]
  | case4 n h e cn c name hints c2 hx ih =>
    simp only [innermostActive] at hdup
    rw [ih hdup] at hx
    cases hx

/-- Without a duplicate sibling name at the innermost active section the walk
succeeds. -/
lemma enterInnermost_ok (ts : MSection) (name : String) (hints : List String)
    (hfree : (innermostActive ts).childNames.contains name = false) :
    ∃ s2, enterInnermost ts name hints = .ok s2 := by
  induction ts, name, hints using enterInnermost.induct with
  | case1 n h e cn name hints hc =>
    simp only [innermostActive, MSection.childNames] at hfree
    rw [hfree] at hc
    cases hc
  | case2 n h e cn name hints hc =>
    exact ⟨_, by rw [enterInnermost, if_neg hc]⟩
  | case3 n h e cn c name hints er hx ih =>
    simp only [innermostActive] at hfree
    obtain ⟨s2, hs2⟩ := ih hfree
    rw [hs2] at hx
    cases hx
  | case4 n h e cn c name hints c2 hx ih =>
    refine ⟨.mk n h e cn (some c2), ?_⟩
    rw [enterInnermost, hx]

/-- C9 (counterexample): with the root-level section `a` still open
(`is_entered = True`) and no children, `section("b")` does not fail with an
already-active error — it succeeds and nests `b` under `a`; the
root-already-exists error fires in the opposite situation, when the existing
root-level section is no longer entered. -/
theorem sectionEnter_open_root_counterexample :
    sectionEnter (some (.mk "a" [] true [] none)) "b" [] =
      .ok (.mk "a" [] true ["b"] (some (.mk "b" [] true [] none))) ∧
    sectionEnter (some (.mk "a" [] false [] none)) "b" [] =
      .error .rootAlreadyExists :=
  ⟨rfl, rfl⟩

/-- C9 (amended): entering a section fails with `DuplicateSectionName` when
the innermost open section already has a child with that name, and fails with
the root-already-exists `RuntimeError` when the task already has a root-level
section that is *no longer entered*; while the root-level section is still
open, a `section()` call creates a nested, entered child instead of failing;
with no root section at all it creates and enters one. -/
theorem sectionEnter_error_conditions :
    (∀ (ts : MSection) (name : String) (hints : List String),
      ts.is_entered = false →
      sectionEnter (some ts) name hints = .error .rootAlreadyExists) ∧
    (∀ (ts : MSection) (name : String) (hints : List String),
      ts.is_entered = true →
      (innermostActive ts).childNames.contains name = true →
      sectionEnter (some ts) name hints = .error .duplicateName) ∧
    (∀ (ts : MSection) (name : String) (hints : List String),
      ts.is_entered = true →
      (innermostActive ts).childNames.contains name = false →
      ∃ s2, sectionEnter (some ts) name hints = .ok s2) ∧
    (∀ (name : String) (hints : List String),
      sectionEnter none name hints = .ok (.mk name hints true [] none)) := by
  refine ⟨?_, ?_, ?_, fun name hints => rfl⟩
  · intro ts name hints he
    rw [sectionEnter, if_neg (by simp [he])]
  · intro ts name hints he hdup
    rw [sectionEnter, if_pos he]
    exact enterInnermost_duplicate ts name hints hdup
  · intro ts name hints he hfree
    rw [sectionEnter, if_pos he]
    exact enterInnermost_ok ts name hints hfree

/-- Witness for `sectionEnter_error_conditions` on a root section `a` with an
existing child `b`. -/
theorem sectionEnter_error_conditions_witness :
    sectionEnter (some (.mk "a" [] false ["b"] none)) "b" [] =
      .error .rootAlreadyExists ∧
    sectionEnter (some (.mk "a" [] true ["b"] none)) "b" [] =
      .error .duplicateName ∧
    (∃ s2, sectionEnter (some (.mk "a" [] true ["b"] none)) "c" [] =
      .ok s2) :=
  ⟨sectionEnter_error_conditions.1 (.mk "a" [] false ["b"] none) "b" [] rfl,
    sectionEnter_error_conditions.2.1 (.mk "a" [] true ["b"] none) "b" []
      rfl (by decide),
    sectionEnter_error_conditions.2.2.1 (.mk "a" [] true ["b"] none) "c" []
      rfl (by decide)⟩

/-! ## Path resolver (`current_tree.py` / `current_path.py`)

The ancestor chain of the current task (current task first, root task last)
is produced by `global_root_path()` from the external scheduler, so it enters
the model as an input.  A `TaskTree` carries its graph plus the per-node data
mapping (`InstanceMapping`: type key to instance value), modelled with
abstract key and value types. -/

/-- A planted `TaskTree` as seen by the path resolver. -/
structure TreeState (κ ν : Type) where
  graph : Graph
  data : Node → List (κ × ν)

/-- Errors surfaced by the path resolver. -/
inductive ResolveErr where
  /-- `RuntimeError`: no path from the current task to a planted root. -/
  | noTaskTree
  /-- `LookupError` from `get_first_instance`. -/
  | lookupError
  /-- An error raised by `TaskTree.add_path` inside `add_root_path`. -/
  | treeErr (e : TaskTreeErr)
deriving DecidableEq, Repr

/-- `tree_and_root_path()`: walk the ancestor chain from the current task,
appending each task to `path_from_node_to_root`; the first task registered in
`_TASK_TREES` wins and the accumulated path is returned reversed
(root first); an exhausted chain raises the no-task-tree `RuntimeError`. -/
def treeAndRootPath {κ ν : Type} (registry : List (Node × TreeState κ ν)) :
    List Node → List Node → Except ResolveErr (TreeState κ ν × List Node)
  | [], _ => .error .noTaskTree
  | node :: rest, acc =>
    let acc2 := acc ++ [node]
    match registry.lookup node with
    | some tree => .ok (tree, acc2.reverse)
    | none => treeAndRootPath registry rest acc2

/-- `add_root_path()`: find the innermost tree, then `tree.add_path(path)`
(whose raises propagate). -/
def addRootPath {κ ν : Type} (registry : List (Node × TreeState κ ν))
    (chain : List Node) : Except ResolveErr (TreeState κ ν × List Node) :=
  match treeAndRootPath registry chain [] with
  | .error e => .error e
  | .ok (tree, path) =>
    match addPathCall tree.graph path with
    | .error e => .error (.treeErr e)
    | .ok g2 => .ok ({ tree with graph := g2 }, path)

/-- `get_instances(type_)`: collect the instance stored for the key at each
node along the root-to-current path (`_path_data` / `_path_instances`), then
return them reversed — closest to the current task first. -/
def getInstances {κ ν : Type} [DecidableEq κ]
    (registry : List (Node × TreeState κ ν)) (chain : List Node) (key : κ) :
    Except ResolveErr (List ν) :=
  match addRootPath registry chain with
  | .error e => .error e
  | .ok (tree, path) =>
    .ok ((path.filterMap fun n => (tree.data n).lookup key).reverse)

/-- `get_first_instance(type_)`: the first instance, or `LookupError`. -/
def getFirstInstance {κ ν : Type} [DecidableEq κ]
    (registry : List (Node × TreeState κ ν)) (chain : List Node) (key : κ) :
    Except ResolveErr ν :=
  match getInstances registry chain key with
  | .error e => .error e
  | .ok instances =>
    match instances.head? with
    | some v => .ok v
    | none => .error .lookupError

lemma findSome?_eq_head?_filterMap {α β : Type} (f : α → Option β) :
    ∀ l : List α, l.findSome? f = (l.filterMap f).head? := by
  intro l
  induction l with
  | nil => rfl
  | cons a t ih =>
    cases hfa : f a with
    | none => rw [List.findSome?_cons, hfa, List.filterMap_cons, hfa, ih]
    | some b => rw [List.findSome?_cons, hfa, List.filterMap_cons, hfa]; rfl

lemma reverse_filterMap {α β : Type} (f : α → Option β) :
    ∀ l : List α, (l.filterMap f).reverse = l.reverse.filterMap f := by
  intro l
  induction l with
  | nil => rfl
  | cons a t ih =>
    cases hfa : f a with
    | none =>
      rw [List.filterMap_cons, hfa, ih, List.reverse_cons,
        List.filterMap_append,
        show List.filterMap f [a] = [] by
          rw [List.filterMap_cons, hfa]; rfl,
        List.append_nil]
    | some b =>
      rw [List.filterMap_cons, hfa, List.reverse_cons, List.reverse_cons, ih,
        List.filterMap_append,
        show List.filterMap f [a] = [b] by
          rw [List.filterMap_cons, hfa]; rfl]

lemma treeAndRootPath_exhausted {κ ν : Type}
    (registry : List (Node × TreeState κ ν)) :
    ∀ (chain : List Node), (∀ n ∈ chain, registry.lookup n = none) →
      ∀ acc, treeAndRootPath registry chain acc = .error .noTaskTree := by
  intro chain
  induction chain with
  | nil => intro _ acc; rfl
  | cons node rest ih =>
    intro hmiss acc
    rw [treeAndRootPath]
    rw [hmiss node (List.mem_cons_self node rest)]
    exact ih (fun n hn => hmiss n (List.mem_cons_of_mem node hn)) _

/-- C5: `get_first_instance` returns the nearest value for the key — walking
the root path from the current task toward the root, the first node holding
one wins — raising `LookupError` when no node on the path holds one, and
raising the no-task-tree `RuntimeError` when no task of the ancestor chain
planted a tree.  (The steady state `isPath tree.graph path = true` keeps
`add_path` from its broadcast-raising extension branch; see
`taskTree_broadcast_change_bug`.) -/
theorem getFirstInstance_nearest {κ ν : Type} [DecidableEq κ] :
    (∀ (registry : List (Node × TreeState κ ν)) (chain : List Node) (key : κ),
      (∀ n ∈ chain, registry.lookup n = none) →
      getFirstInstance registry chain key = .error .noTaskTree) ∧
    (∀ (registry : List (Node × TreeState κ ν)) (chain : List Node) (key : κ)
        (tree : TreeState κ ν) (path : List Node),
      treeAndRootPath registry chain [] = .ok (tree, path) →
      isPath tree.graph path = true →
      getFirstInstance registry chain key =
        match path.reverse.findSome? (fun n => (tree.data n).lookup key) with
        | some v => .ok v
        | none => .error .lookupError) := by
  constructor
  · intro registry chain key hmiss
    rw [getFirstInstance, getInstances, addRootPath,
      treeAndRootPath_exhausted registry chain hmiss []]
  · intro registry chain key tree path htr hp
    have hcall : addPathCall tree.graph path = .ok tree.graph := by
      rw [addPathCall, if_pos hp]
    rw [getFirstInstance, getInstances, addRootPath, htr]
    dsimp only
    rw [hcall]
    dsimp only
    rw [reverse_filterMap, ← findSome?_eq_head?_filterMap]

/-- The concrete tree used to witness `getFirstInstance_nearest`: tasks 0
(root, planted) and 1, with node 0 holding `{5: 100}` and node 1 holding
`{7: 200}`. -/
def resolverTreeW : TreeState Nat Nat :=
  { graph := ⟨[0, 1], [(0, 1)]⟩,
    data := fun n =>
      if n = 0 then [(5, 100)] else if n = 1 then [(7, 200)] else [] }

/-- Witness for `getFirstInstance_nearest`: from current task 1 with ancestor
chain `[1, 0]`, key 5 resolves to the root value 100; with an empty registry
the no-task-tree error is raised. -/
theorem getFirstInstance_nearest_witness :
    getFirstInstance [(0, resolverTreeW)] [1, 0] 5 = .ok 100 ∧
    getFirstInstance ([] : List (Node × TreeState Nat Nat)) [1, 0] 5 =
      .error .noTaskTree := by
  constructor
  · have h := (getFirstInstance_nearest (κ := Nat) (ν := Nat)).2
      [(0, resolverTreeW)] [1, 0] 5 resolverTreeW [0, 1] rfl (by decide)
    rw [h]
    rfl
  · exact (getFirstInstance_nearest (κ := Nat) (ν := Nat)).1 [] [1, 0] 5
      (fun n _ => rfl)

end Cyto
